import Mathlib

/-!
Verification of the ETP name-classification core (`src/detectors.py` together
with the compiled rule tables of `src/constants.py`).

The engine is embedded shallowly: a name is a `List Char`; every compiled
regular expression of the source is applied (in the source) either to the
normalized, lower-cased name or to the raw original-case name.  On the
normalized lower-cased text every pattern of the source is of the shape
"word-boundary, one of finitely many literal alternatives, word-boundary"
(after expanding the optional pieces, with a whitespace class standing for a
single space, since normalization collapses whitespace runs), so those
patterns are embedded as finite lists of literal alternatives searched with
explicit word-boundary checks.  The four single-stock shape patterns run on
the raw name and are embedded as dedicated position scanners.  Word
characters, whitespace and case mapping follow the ASCII reading of the
Python semantics.
-/

namespace EtpFinder

/-- A Python `str` is modelled as a list of characters. -/
abbrev Chars := List Char

/-- Whitespace characters of the regex whitespace class (ASCII model). -/
def isWs (c : Char) : Bool :=
  c == ' ' || c == '\t' || c == '\n' || c == '\r' || c == Char.ofNat 11 || c == Char.ofNat 12

/-- ASCII lower-casing of one character (model of `str.lower`). -/
def lowerChar (c : Char) : Char :=
  match c with
  | 'A' => 'a' | 'B' => 'b' | 'C' => 'c' | 'D' => 'd' | 'E' => 'e' | 'F' => 'f'
  | 'G' => 'g' | 'H' => 'h' | 'I' => 'i' | 'J' => 'j' | 'K' => 'k' | 'L' => 'l'
  | 'M' => 'm' | 'N' => 'n' | 'O' => 'o' | 'P' => 'p' | 'Q' => 'q' | 'R' => 'r'
  | 'S' => 's' | 'T' => 't' | 'U' => 'u' | 'V' => 'v' | 'W' => 'w' | 'X' => 'x'
  | 'Y' => 'y' | 'Z' => 'z'
  | d => d

/-- ASCII upper-casing of one character (model of `str.upper`). -/
def upperChar (c : Char) : Char :=
  match c with
  | 'a' => 'A' | 'b' => 'B' | 'c' => 'C' | 'd' => 'D' | 'e' => 'E' | 'f' => 'F'
  | 'g' => 'G' | 'h' => 'H' | 'i' => 'I' | 'j' => 'J' | 'k' => 'K' | 'l' => 'L'
  | 'm' => 'M' | 'n' => 'N' | 'o' => 'O' | 'p' => 'P' | 'q' => 'Q' | 'r' => 'R'
  | 's' => 'S' | 't' => 'T' | 'u' => 'U' | 'v' => 'V' | 'w' => 'W' | 'x' => 'X'
  | 'y' => 'Y' | 'z' => 'Z'
  | d => d

/-- A regex word character (ASCII model of the word class). -/
def isWordChar (c : Char) : Bool := c.isAlpha || c.isDigit || c == '_'

/-- Word-character test lifted to an optional character (none at the ends of
the string counts as a non-word position). -/
def wordO : Option Char → Bool
  | none => false
  | some c => isWordChar c

/-- A word boundary sits between two adjacent positions exactly when one side
is a word character and the other is not (or is the end of the string). -/
def isBdry (p q : Option Char) : Bool := wordO p != wordO q

/-! ### Normalizer: `_norm` collapses whitespace runs to single spaces and
strips the ends; `_lower` lower-cases the result. -/

/-- Replace every maximal whitespace run by a single space.  The flag records
whether the previous character was part of a whitespace run. -/
def collapseAux : Bool → Chars → Chars
  | _, [] => []
  | inRun, c :: rest =>
    if isWs c then
      if inRun then collapseAux true rest else ' ' :: collapseAux true rest
    else c :: collapseAux false rest

def collapseWs (s : Chars) : Chars := collapseAux false s

/-- Strip leading and trailing whitespace (model of `str.strip`). -/
def stripChars (s : Chars) : Chars :=
  ((s.dropWhile isWs).reverse.dropWhile isWs).reverse

/-- Model of `_norm`: collapse whitespace runs, then strip. -/
def normChars (s : Chars) : Chars := stripChars (collapseWs s)

def lowerChars (s : Chars) : Chars := s.map lowerChar

/-- Model of `_lower` applied to an input string: the folded comparison form. -/
def foldName (s : String) : Chars := lowerChars (normChars s.data)

def upperStr (s : String) : String := String.mk (s.data.map upperChar)

/-! ### Input records.  `detect` reads only the "ETF" field of the row dict. -/

/-- A CSV row is a dictionary from field names to values. -/
abbrev Row := List (String × String)

/-- Model of `row.get(key, "")`. -/
def rowGet (row : Row) (key : String) : String :=
  match row.find? (fun kv => kv.fst == key) with
  | some kv => kv.snd
  | none => ""

/-- Model of `row.get("ETF", "").upper() == "Y"`. -/
def etpFlagOf (row : Row) : Bool := upperStr (rowGet row "ETF") == "Y"

/-! ### Generic boundary-delimited token search.

`searchTok alts s` models `PATTERN.search(s)` for a pattern that is an
alternation of literal tokens, each wrapped in word boundaries, applied to
normalized lower-cased text. -/

/-- Does token `tok` match at the current position (with `prev` the character
just before the position), with word boundaries on both sides? -/
def tokHereB (tok : Chars) (prev : Option Char) (s : Chars) : Bool :=
  tok.isPrefixOf s && isBdry prev s.head? && isBdry tok.getLast? ((s.drop tok.length).head?)

def searchTokAux (alts : List Chars) (prev : Option Char) (s : Chars) : Bool :=
  match s with
  | [] => false
  | c :: rest =>
    alts.any (fun t => tokHereB t prev (c :: rest)) || searchTokAux alts (some c) rest

def searchTok (alts : List Chars) (s : Chars) : Bool := searchTokAux alts none s

/-- Model of Python substring containment (`sub in s`). -/
def containsSub (s sub : Chars) : Bool :=
  match s with
  | [] => sub.isEmpty
  | _ :: rest => sub.isPrefixOf s || containsSub rest sub

/-- Every occurrence of `tok` in the string is immediately (with no character
in between) followed by `fol`. -/
def allOccFollowedBy (tok fol : Chars) : Chars → Bool
  | [] => true
  | c :: rest =>
    (!(tok.isPrefixOf (c :: rest)) || fol.isPrefixOf ((c :: rest).drop tok.length))
    && allOccFollowedBy tok fol rest

/-! ### The pattern library of `constants.py`, expanded to literal
alternatives over normalized lower-cased text. -/

/-- `TRUST`. -/
def TRUST_alts : List Chars := ["trust".data]

/-- `ETF_WORD`. -/
def ETFWORD_alts : List Chars := ["etf".data, "etfs".data]

/-- `ETN`: note tokens, spelled-out exchange-traded notes, and "note(s) due". -/
def ETN_alts : List Chars :=
  ["etn".data, "etns".data,
   "exchange-traded note".data, "exchange-traded notes".data,
   "exchangetraded note".data, "exchangetraded notes".data,
   "note due".data, "notes due".data]

/-- `LEVERAGE_NUM`. -/
def LEVNUM_alts : List Chars := ["1.5x".data, "2x".data, "3x".data, "4x".data]

/-- `INVERSE`. -/
def INVERSE_alts : List Chars :=
  ["-1x".data, "-2x".data, "inverse".data, "short".data, "bear".data]

/-- `BRAND_CTX`. -/
def BRANDCTX_alts : List Chars :=
  ["ultrapro".data, "proshares ultra".data, "direxion daily".data]

/-- `BULL_BEAR`. -/
def BULLBEAR_alts : List Chars := ["bull".data, "bear".data]

/-- `COMMODITY`. -/
def COMMODITY_alts : List Chars :=
  ["gold".data, "silver".data, "platinum".data, "palladium".data, "oil".data,
   "crude".data, "brent".data, "wti".data, "natural gas".data, "nat gas".data,
   "vix".data, "bitcoin".data, "btc".data, "ether".data, "ethereum".data, "copper".data]

/-- `FUTURES`. -/
def FUTURES_alts : List Chars :=
  ["future".data, "futures".data, "front-month".data, "frontmonth".data,
   "future strategy".data, "futures strategy".data, "strategy".data]

/-- `ULTRAPRO`. -/
def ULTRAPRO_alts : List Chars := ["ultrapro".data]

/-- `PRO_ULTRA`. -/
def PRO_ULTRA_alts : List Chars := ["proshares ultra".data]

/-- `PRO_ULTRASHORT`. -/
def PRO_ULTRASHORT_alts : List Chars := ["proshares ultrashort".data]

/-- The explicit unambiguous bearish tokens checked inside
`_is_inverse_context`. -/
def EXPLBEAR_alts : List Chars := ["-1x".data, "-2x".data, "bear".data]

/-- The inverse vocabulary of the brand secondary check in
`_brand_implies_leverage`. -/
def BRANDSEC_alts : List Chars :=
  ["inverse".data, "ultrashort".data, "ultra short".data, "short".data, "bear".data]

/-- The crypto vocabulary used for category labeling inside `detect`. -/
def CRYPTO_alts : List Chars :=
  ["bitcoin".data, "btc".data, "ether".data, "ethereum".data]

/-- The physical/bullion vocabulary used inside `detect`. -/
def PHYS_alts : List Chars :=
  ["physical".data, "physically".data, "bullion".data, "bar".data, "bars".data]

/-- An apostrophe character, written by code point. -/
def apoChar : Char := Char.ofNat 39

/-- First group of `EXCL_SHORT_DURATION`: `ultra\s*short` or `short[-\s]?`
(on normalized text the whitespace class is a single space). -/
def EXCL_part1 : List Chars :=
  ["ultrashort".data, "ultra short".data, "short".data, "short-".data, "short ".data]

/-- Second group of `EXCL_SHORT_DURATION`, all optional pieces expanded. -/
def EXCL_part2 : List Chars :=
  ["term".data, "duration".data, "maturity".data, "maturities".data, "treasury".data,
   "t-bill".data, "tbill".data, "muni".data, "municipal".data, "government".data,
   "gov".data, ("gov".data ++ [apoChar, 't']), "corp".data, "corporate".data, "bond".data,
   "fixed income".data, "fixedincome".data, "income".data, "cash".data,
   "money market".data, "moneymarket".data]

/-- `EXCL_SHORT_DURATION`: the two groups are concatenated with nothing in
between, so the alternative set is the set of pairwise concatenations. -/
def EXCL_alts : List Chars :=
  (EXCL_part1.map (fun a => EXCL_part2.map (fun b => a ++ b))).flatten

/-! ### `_commodity_hit`, with the gold/Goldman exception pattern. -/

def goldTok : Chars := "gold".data
def manTok : Chars := "man".data

/-- Scanner for the inline pattern "word boundary, gold, not followed by man,
word boundary" used by `_commodity_hit` on names containing "goldman". -/
def goldNotManAux (prev : Option Char) (s : Chars) : Bool :=
  match s with
  | [] => false
  | c :: rest =>
    (goldTok.isPrefixOf (c :: rest) && isBdry prev (some 'g')
      && !(manTok.isPrefixOf ((c :: rest).drop 4))
      && isBdry (some 'd') (((c :: rest).drop 4).head?))
    || goldNotManAux (some c) rest

def goldNotMan (s : Chars) : Bool := goldNotManAux none s

/-- Model of `_commodity_hit`. -/
def commodityHit (n : Chars) : Bool :=
  if containsSub n ("goldman".data) then goldNotMan n || searchTok COMMODITY_alts n
  else searchTok COMMODITY_alts n

/-! ### The four single-stock shape patterns (`SINGLE_STOCK_PATTERNS`),
applied to the raw original-case name.  All four are compiled with the
ignore-case flag, which in Python also makes the upper-case letter class
match lower-case letters, so the ticker slot is any run of 1 to 5 ASCII
letters delimited as in the pattern. -/

/-- Case-insensitive literal match at the start of the text; the pattern is
given lower-cased. -/
def ciStarts : Chars → Chars → Bool
  | [], _ => true
  | _ :: _, [] => false
  | p :: ps, c :: cs => (lowerChar c == p) && ciStarts ps cs

/-- After a keyword: one or more whitespace characters, then a maximal run of
1 to 5 letters, then a word boundary.  Used by the long/short shape. -/
def tickerThenBdry (s1 : Chars) : Bool :=
  !(s1.takeWhile isWs).isEmpty &&
    (let s2 := s1.dropWhile isWs
     let run := s2.takeWhile Char.isAlpha
     !run.isEmpty && Nat.ble run.length 5 &&
       !(wordO ((s2.dropWhile Char.isAlpha).head?)))

/-- Shape 1: boundary, "daily", whitespace, TICKER, whitespace, bull or bear,
boundary. -/
def matchP1At (prev : Option Char) (s : Chars) : Bool :=
  !(wordO prev) && ciStarts ("daily".data) s &&
    (let s1 := s.drop 5
     !(s1.takeWhile isWs).isEmpty &&
       (let s2 := s1.dropWhile isWs
        let run := s2.takeWhile Char.isAlpha
        !run.isEmpty && Nat.ble run.length 5 &&
          (let s3 := s2.dropWhile Char.isAlpha
           !(s3.takeWhile isWs).isEmpty &&
             (let s4 := s3.dropWhile isWs
              (ciStarts ("bull".data) s4 || ciStarts ("bear".data) s4)
                && !(wordO ((s4.drop 4).head?))))))

/-- Shape 2: boundary, long or short, whitespace, TICKER, boundary. -/
def matchP2At (prev : Option Char) (s : Chars) : Bool :=
  !(wordO prev) &&
    ((ciStarts ("long".data) s && tickerThenBdry (s.drop 4)) ||
     (ciStarts ("short".data) s && tickerThenBdry (s.drop 5)))

/-- The multiplier tokens of shape 3, each followed by a word boundary. -/
def multTokAt (s4 : Chars) : Bool :=
  (["1x".data, "2x".data, "3x".data, "-1x".data, "-2x".data]).any
    (fun t => ciStarts t s4 && !(wordO ((s4.drop t.length).head?)))

/-- Shape 3: boundary, TICKER, boundary, whitespace, bull or bear,
whitespace, multiplier token, boundary. -/
def matchP3At (prev : Option Char) (s : Chars) : Bool :=
  !(wordO prev) &&
    (let run := s.takeWhile Char.isAlpha
     !run.isEmpty && Nat.ble run.length 5 &&
       (let s1 := s.dropWhile Char.isAlpha
        !(s1.takeWhile isWs).isEmpty &&
          (let s2 := s1.dropWhile isWs
           (ciStarts ("bull".data) s2 || ciStarts ("bear".data) s2) &&
             (let s3 := s2.drop 4
              !(s3.takeWhile isWs).isEmpty && multTokAt (s3.dropWhile isWs)))))

/-- Shape 4: boundary, TICKER, right parenthesis, optional whitespace, bull
or bear. -/
def matchP4At (prev : Option Char) (s : Chars) : Bool :=
  !(wordO prev) &&
    (let run := s.takeWhile Char.isAlpha
     !run.isEmpty && Nat.ble run.length 5 &&
       (let s1 := s.dropWhile Char.isAlpha
        s1.head? == some (')') &&
          (let s2 := (s1.drop 1).dropWhile isWs
           ciStarts ("bull".data) s2 || ciStarts ("bear".data) s2)))

def singleStockAux (prev : Option Char) (s : Chars) : Bool :=
  match s with
  | [] => false
  | c :: rest =>
    matchP1At prev (c :: rest) || matchP2At prev (c :: rest) ||
    matchP3At prev (c :: rest) || matchP4At prev (c :: rest) ||
    singleStockAux (some c) rest

/-- Model of `_single_stock_hint`, scanned over the raw original-case name. -/
def singleStockHint (raw : Chars) : Bool := singleStockAux none raw

/-! ### The detector components of `detectors.py`. -/

/-- Model of `_is_inverse_context`. -/
def isInverseContext (n : Chars) : Bool :=
  if searchTok INVERSE_alts n then
    if searchTok EXCL_alts n then searchTok EXPLBEAR_alts n
    else true
  else false

/-- Model of `_is_leverage_context`. -/
def isLeverageContext (n : Chars) : Bool :=
  searchTok LEVNUM_alts n ||
    (searchTok BRANDCTX_alts n && (searchTok BULLBEAR_alts n || searchTok LEVNUM_alts n))

/-- First component of `_brand_implies_leverage`: did any brand rule fire? -/
def brandHitF (n : Chars) : Bool :=
  searchTok ULTRAPRO_alts n || searchTok PRO_ULTRA_alts n || searchTok PRO_ULTRASHORT_alts n

/-- The secondary inverse-keyword check of `_brand_implies_leverage`: runs
only when a brand fired and the direction is not already inverse, and
upgrades only outside duration/cash exclusion contexts. -/
def brandSecondary (n : Chars) : Bool :=
  brandHitF n && !(searchTok PRO_ULTRASHORT_alts n) &&
    searchTok BRANDSEC_alts n && !(searchTok EXCL_alts n)

/-- Direction component of `_brand_implies_leverage`. -/
def brandInverse (n : Chars) : Bool :=
  searchTok PRO_ULTRASHORT_alts n || brandSecondary n

/-- Implied-multiplier component of `_brand_implies_leverage` (the source
overwrites the multiplier in rule order 1, 2, 3, so the last firing rule
wins). -/
def brandMult (n : Chars) : Option Nat :=
  if searchTok PRO_ULTRASHORT_alts n then some 2
  else if searchTok PRO_ULTRA_alts n then some 2
  else if searchTok ULTRAPRO_alts n then some 3
  else none

/-- Reason-list component of `_brand_implies_leverage`, in source append
order. -/
def brandReasons (n : Chars) : List String :=
  (if searchTok ULTRAPRO_alts n then ["brand_ultrapro_implies_3x"] else []) ++
  (if searchTok PRO_ULTRA_alts n then ["brand_proshares_ultra_implies_2x"] else []) ++
  (if searchTok PRO_ULTRASHORT_alts n then ["brand_proshares_ultrashort_implies_minus2x"] else []) ++
  (if brandSecondary n then ["inverse_keyword_under_brand"] else [])

/-- The type determination of `detect` (lines setting `etp_type`). -/
def detectType (etpFlag hasTrust hasEtn hasEtfWord commHit : Bool) : Option String :=
  if hasEtn then some "ETN"
  else if hasTrust && commHit then some "Trust"
  else if etpFlag || hasEtfWord then some "ETF"
  else none

/-- The reason appended alongside the type determination of `detect`. -/
def detectTypeReason (etpFlag hasTrust hasEtn hasEtfWord commHit : Bool) : List String :=
  if hasEtn then ["type_etn_by_name"]
  else if hasTrust && commHit then ["type_trust_with_commodity"]
  else if etpFlag || hasEtfWord then ["type_etf"]
  else []

/-- The result tuple of `detect`: (matched, category, reasons, etp_type). -/
structure Verdict where
  matched : Bool
  category : Option String
  reasons : List String
  etp_type : Option String
deriving DecidableEq

/-- The implied-multiplier reason string appended in the brand branch. -/
def multReasonOf (m : Option Nat) : String :=
  match m with
  | some k => "implied_multiplier_" ++ toString k ++ "x"
  | none => "implied_multiplier_unknown"

/-- The reason list accumulated before the category branches of `detect`:
the flag reason followed by the type reason. -/
def reasonsPre (etpFlag hasTrust hasEtn hasEtfWord commHit : Bool) : List String :=
  (if etpFlag then ["etf_flag_Y"] else []) ++
    detectTypeReason etpFlag hasTrust hasEtn hasEtfWord commHit

/-- The body of `detect`, as a function of the raw name, the folded
(normalized lower-cased) name, and the ETF flag of the row.  The local
bindings of the source (`has_trust`, `etp_type`, `reasons`, ...) are inlined;
each occurrence denotes the same pure computation as in the source. -/
def detectCore (raw n : Chars) (etpFlag : Bool) : Verdict :=
  if !(etpFlag || searchTok TRUST_alts n || searchTok ETN_alts n || searchTok ETFWORD_alts n) then
    { matched := false, category := none, reasons := [], etp_type := none }
  else if brandHitF n then
    { matched := true,
      category := some
        (if singleStockHint raw then
          if brandInverse n || isInverseContext n then "leveraged_single_stock_inverse"
          else "leveraged_single_stock_long"
        else
          if brandInverse n || isInverseContext n then "leveraged_index_inverse"
          else "leveraged_index_long"),
      reasons :=
        reasonsPre etpFlag (searchTok TRUST_alts n) (searchTok ETN_alts n)
          (searchTok ETFWORD_alts n) (commodityHit n) ++
        brandReasons n ++ [multReasonOf (brandMult n)],
      etp_type := some
        ((detectType etpFlag (searchTok TRUST_alts n) (searchTok ETN_alts n)
          (searchTok ETFWORD_alts n) (commodityHit n)).getD "ETF") }
  else if isLeverageContext n || isInverseContext n then
    if singleStockHint raw then
      { matched := true,
        category := some
          (if isInverseContext n then "leveraged_single_stock_inverse"
           else "leveraged_single_stock_long"),
        reasons :=
          reasonsPre etpFlag (searchTok TRUST_alts n) (searchTok ETN_alts n)
            (searchTok ETFWORD_alts n) (commodityHit n) ++
          ((if isLeverageContext n then ["leverage_context"] else []) ++
            (if isInverseContext n then ["inverse_context"] else [])) ++
          ["single_stock_detected"],
        etp_type := some
          ((detectType etpFlag (searchTok TRUST_alts n) (searchTok ETN_alts n)
            (searchTok ETFWORD_alts n) (commodityHit n)).getD "ETF") }
    else
      { matched := true,
        category := some
          (if isInverseContext n then "leveraged_index_inverse"
           else "leveraged_index_long"),
        reasons :=
          reasonsPre etpFlag (searchTok TRUST_alts n) (searchTok ETN_alts n)
            (searchTok ETFWORD_alts n) (commodityHit n) ++
          ((if isLeverageContext n then ["leverage_context"] else []) ++
            (if isInverseContext n then ["inverse_context"] else [])),
        etp_type := some
          ((detectType etpFlag (searchTok TRUST_alts n) (searchTok ETN_alts n)
            (searchTok ETFWORD_alts n) (commodityHit n)).getD "ETF") }
  else if commodityHit n && searchTok FUTURES_alts n then
    { matched := true,
      category := some (if searchTok CRYPTO_alts n then "crypto_futures" else "commodity_futures"),
      reasons :=
        reasonsPre etpFlag (searchTok TRUST_alts n) (searchTok ETN_alts n)
          (searchTok ETFWORD_alts n) (commodityHit n) ++ ["futures_keyword"],
      etp_type := some
        ((detectType etpFlag (searchTok TRUST_alts n) (searchTok ETN_alts n)
          (searchTok ETFWORD_alts n) (commodityHit n)).getD
          (if searchTok ETN_alts n then "ETN" else "ETF")) }
  else if searchTok TRUST_alts n && commodityHit n then
    { matched := true,
      category := some (if searchTok CRYPTO_alts n then "crypto_trust" else "commodity_physical_trust"),
      reasons :=
        reasonsPre etpFlag (searchTok TRUST_alts n) (searchTok ETN_alts n)
          (searchTok ETFWORD_alts n) (commodityHit n) ++
        (if searchTok PHYS_alts n then ["physical_keyword"] else []),
      etp_type := some
        ((detectType etpFlag (searchTok TRUST_alts n) (searchTok ETN_alts n)
          (searchTok ETFWORD_alts n) (commodityHit n)).getD "Trust") }
  else if commodityHit n && searchTok PHYS_alts n then
    { matched := true,
      category := some (if searchTok CRYPTO_alts n then "crypto_trust" else "commodity_physical_trust"),
      reasons :=
        reasonsPre etpFlag (searchTok TRUST_alts n) (searchTok ETN_alts n)
          (searchTok ETFWORD_alts n) (commodityHit n) ++ ["physical_keyword"],
      etp_type := some
        ((detectType etpFlag (searchTok TRUST_alts n) (searchTok ETN_alts n)
          (searchTok ETFWORD_alts n) (commodityHit n)).getD "ETF") }
  else
    { matched := false, category := none, reasons := [],
      etp_type := detectType etpFlag (searchTok TRUST_alts n) (searchTok ETN_alts n)
        (searchTok ETFWORD_alts n) (commodityHit n) }

/-- Model of `detect(name, row)` (and of the `classify` contract of the
specification, which is the same function with the row reduced to its
flags). -/
def detect (name : String) (row : Row) : Verdict :=
  detectCore name.data (foldName name) (etpFlagOf row)

/-- Is a category value one of the two inverse leveraged categories? -/
def isInvCatB (c : Option String) : Bool :=
  (c == some "leveraged_single_stock_inverse") || (c == some "leveraged_index_inverse")

/-- The character just before a match position: the last character of the
consumed part, or the incoming previous character when nothing was consumed. -/
def prevAt (prev : Option Char) (pre : Chars) : Option Char :=
  match pre.getLast? with
  | some c => some c
  | none => prev

/-! ### Basic list and boundary lemmas. -/

theorem prefl_ex : ∀ {p s : Chars}, p.isPrefixOf s = true → ∃ r, s = p ++ r := by
  intro p
  induction p with
  | nil => exact fun h => ⟨_, rfl⟩
  | cons a p ih =>
    intro s h
    cases s with
    | nil => simp [List.isPrefixOf] at h
    | cons b t =>
      simp only [List.isPrefixOf, Bool.and_eq_true, beq_iff_eq] at h
      obtain ⟨r, hr⟩ := ih h.2
      exact ⟨r, by rw [h.1, hr]; rfl⟩

theorem prefl_append : ∀ (p r : Chars), p.isPrefixOf (p ++ r) = true := by
  intro p
  induction p with
  | nil => intro r; simp [List.isPrefixOf]
  | cons a p ih => intro r; simp [List.isPrefixOf, ih]

theorem head_append_left {t : Chars} (h : t ≠ []) (post : Chars) :
    (t ++ post).head? = t.head? := by
  cases t with
  | nil => exact absurd rfl h
  | cons a u => rfl

theorem prevAt_nil (prev : Option Char) : prevAt prev [] = prev := rfl

theorem prevAt_cons (prev : Option Char) (c : Char) (pre : Chars) :
    prevAt prev (c :: pre) = prevAt (some c) pre := by
  cases pre with
  | nil => rfl
  | cons d t =>
    cases hg : (d :: t).getLast? with
    | none => exact absurd (List.getLast?_eq_none_iff.mp hg) (by simp)
    | some x => simp [prevAt, List.getLast?_cons_cons, hg]

theorem mem_of_getLast : ∀ {l : Chars} {c : Char}, l.getLast? = some c → c ∈ l := by
  intro l
  induction l with
  | nil => intro c h; simp [List.getLast?] at h
  | cons a t ih =>
    intro c h
    cases t with
    | nil =>
      simp [List.getLast?] at h
      simp [h]
    | cons b u =>
      rw [List.getLast?_cons_cons] at h
      exact List.mem_cons_of_mem a (ih h)

theorem takeWhile_mem_pred {p : Char → Bool} :
    ∀ {l : Chars} {c : Char}, c ∈ l.takeWhile p → p c = true := by
  intro l
  induction l with
  | nil => intro c h; simp [List.takeWhile] at h
  | cons a t ih =>
    intro c h
    rw [List.takeWhile_cons] at h
    by_cases hp : p a = true
    · rw [if_pos hp] at h
      rcases List.mem_cons.mp h with h1 | h2
      · rw [h1]; exact hp
      · exact ih h2
    · rw [if_neg hp] at h
      simp at h

theorem dropWhile_head_pred {p : Char → Bool} :
    ∀ {l : Chars} {c : Char}, (l.dropWhile p).head? = some c → p c = false := by
  intro l
  induction l with
  | nil => intro c h; simp [List.dropWhile] at h
  | cons a t ih =>
    intro c h
    rw [List.dropWhile_cons] at h
    by_cases hp : p a = true
    · rw [if_pos hp] at h; exact ih h
    · rw [if_neg hp] at h
      simp only [List.head?] at h
      cases h
      exact Bool.not_eq_true _ ▸ Bool.of_not_eq_true hp

theorem head_of_takeWhile_ne {p : Char → Bool} {l : Chars}
    (h : l.takeWhile p ≠ []) : ∃ c, l.head? = some c ∧ p c = true := by
  cases l with
  | nil => simp [List.takeWhile] at h
  | cons a t =>
    rw [List.takeWhile_cons] at h
    by_cases hp : p a = true
    · exact ⟨a, rfl, hp⟩
    · rw [if_neg hp] at h; exact absurd rfl h

theorem bdry_right_false {x y : Bool} (h : (x != y) = true) (hx : x = true) : y = false := by
  subst hx
  cases y
  · rfl
  · simp at h

/-- A token starting with a word character cannot start at a position whose
first character is a non-word position. -/
theorem prefl_false_of_head_not_word {c : Char} (cs post : Chars)
    (hw : isWordChar c = true) (h : wordO post.head? = false) :
    (c :: cs).isPrefixOf post = false := by
  cases post with
  | nil => rfl
  | cons d t =>
    simp only [wordO, List.head?] at h
    simp only [List.isPrefixOf, Bool.and_eq_true, beq_iff_eq]
    cases hcd : (c == d) with
    | false => rfl
    | true =>
      rw [eq_of_beq hcd] at hw
      rw [hw] at h
      cases h

/-! ### Soundness of the boundary-delimited token search: a successful search
yields an explicit occurrence of one of the alternatives, word-bounded on
both sides. -/

theorem searchTokAux_ex {alts : List Chars} (hne : ∀ t ∈ alts, t ≠ []) :
    ∀ (s : Chars) (prev : Option Char), searchTokAux alts prev s = true →
      ∃ t ∈ alts, ∃ pre post, s = pre ++ t ++ post ∧
        isBdry (prevAt prev pre) t.head? = true ∧
        isBdry t.getLast? post.head? = true := by
  intro s
  induction s with
  | nil => intro prev h; simp [searchTokAux] at h
  | cons c rest ih =>
    intro prev h
    rw [searchTokAux] at h
    rcases Bool.or_eq_true _ _ ▸ h with hany | hrec
    · obtain ⟨t, ht, htok⟩ := List.any_eq_true.mp hany
      simp only [tokHereB, Bool.and_eq_true] at htok
      obtain ⟨⟨h1, h2⟩, h3⟩ := htok
      obtain ⟨post, hpost⟩ := prefl_ex h1
      refine ⟨t, ht, [], post, by simpa using hpost, ?_, ?_⟩
      · rw [prevAt_nil]
        have hh : (c :: rest).head? = t.head? := by
          rw [hpost]; exact head_append_left (hne t ht) post
        rw [← hh]
        exact h2
      · have hd : (c :: rest).drop t.length = post := by
          rw [hpost]; exact List.drop_left t post
        rw [hd] at h3
        exact h3
    · obtain ⟨t, ht, pre, post, hs, hb1, hb2⟩ := ih (some c) hrec
      exact ⟨t, ht, c :: pre, post, by rw [hs]; simp,
        by rw [prevAt_cons]; exact hb1, hb2⟩

theorem searchTok_ex {alts : List Chars} {s : Chars} (hne : ∀ t ∈ alts, t ≠ [])
    (h : searchTok alts s = true) :
    ∃ t ∈ alts, ∃ pre post, s = pre ++ t ++ post ∧
      isBdry (prevAt none pre) t.head? = true ∧
      isBdry t.getLast? post.head? = true :=
  searchTokAux_ex hne s none h

/-- Soundness of the dedicated gold-not-goldman scanner. -/
theorem goldNotManAux_ex :
    ∀ (s : Chars) (prev : Option Char), goldNotManAux prev s = true →
      ∃ pre post, s = pre ++ goldTok ++ post ∧
        isBdry (prevAt prev pre) (some 'g') = true ∧
        isBdry (some 'd') post.head? = true ∧
        manTok.isPrefixOf post = false := by
  intro s
  induction s with
  | nil => intro prev h; simp [goldNotManAux] at h
  | cons c rest ih =>
    intro prev h
    rw [goldNotManAux] at h
    rcases Bool.or_eq_true _ _ ▸ h with hhere | hrec
    · simp only [Bool.and_eq_true] at hhere
      obtain ⟨⟨⟨h1, h2⟩, h3⟩, h4⟩ := hhere
      obtain ⟨post, hpost⟩ := prefl_ex h1
      have hd : (c :: rest).drop 4 = post := by
        rw [hpost]; exact List.drop_left goldTok post
      refine ⟨[], post, by simpa using hpost, by rw [prevAt_nil]; exact h2, ?_, ?_⟩
      · rw [hd] at h4; exact h4
      · rw [hd] at h3
        cases hm : manTok.isPrefixOf post with
        | false => rfl
        | true => rw [hm] at h3; cases h3
    · obtain ⟨pre, post, hs, hb1, hb2, hb3⟩ := ih (some c) hrec
      exact ⟨c :: pre, post, by rw [hs]; simp,
        by rw [prevAt_cons]; exact hb1, hb2, hb3⟩

/-- Bridge for the every-occurrence scan: if the scan succeeds, every
decomposition of the string around the token is followed by `fol`. -/
theorem allOcc_ex {tok fol : Chars} (ht : tok ≠ []) :
    ∀ (pre s post : Chars), allOccFollowedBy tok fol s = true →
      s = pre ++ (tok ++ post) → fol.isPrefixOf post = true := by
  intro pre
  induction pre with
  | nil =>
    intro s post h hs
    simp only [List.nil_append] at hs
    subst hs
    cases htok : tok with
    | nil => exact absurd htok ht
    | cons a tk =>
      rw [htok, List.cons_append, allOccFollowedBy] at h
      rcases Bool.and_eq_true _ _ ▸ h with ⟨h1, _⟩
      rw [← List.cons_append, ← htok] at h1
      rw [prefl_append tok post] at h1
      have hd : (tok ++ post).drop tok.length = post := List.drop_left tok post
      rw [hd] at h1
      simpa using h1
  | cons c pre ih =>
    intro s post h hs
    cases s with
    | nil => simp at hs
    | cons d rest =>
      rw [List.cons_append] at hs
      injection hs with hcd hrest
      rw [allOccFollowedBy] at h
      exact ih rest post (Bool.and_eq_true _ _ ▸ h).2 hrest

/-! ### The normalizer sends whitespace-only input to the empty string. -/

theorem collapseAux_allWs : ∀ {s : Chars}, s.all isWs = true → collapseAux true s = [] := by
  intro s
  induction s with
  | nil => intro _; rfl
  | cons c rest ih =>
    intro h
    simp only [List.all_cons, Bool.and_eq_true] at h
    simp [collapseAux, h.1, ih h.2]

theorem normChars_allWs {s : Chars} (h : s.all isWs = true) : normChars s = [] := by
  cases s with
  | nil => rfl
  | cons c rest =>
    simp only [List.all_cons, Bool.and_eq_true] at h
    have hc : collapseWs (c :: rest) = [' '] := by
      simp [collapseWs, collapseAux, h.1, collapseAux_allWs h.2]
    rw [normChars, hc]
    rfl

theorem foldName_allWs {name : String} (h : name.data.all isWs = true) :
    foldName name = [] := by
  rw [foldName, normChars_allWs h]
  rfl

/-- On an empty folded name every branch of the detector fails, whatever the
raw name and the flag. -/
theorem detectCore_nil_matched (raw : Chars) (f : Bool) :
    (detectCore raw [] f).matched = false := by
  cases f <;> rfl

/-! ### Claim theorems. -/

/-- Claim C9 (confirmed): for every flags value, classification of an empty
or whitespace-only name returns a complete verdict with `matched = false`
(in this embedding the function is total by construction, so no run-time
failure is possible; the empty normalized string fails every test). -/
theorem c9_blank (name : String) (row : Row) (h : name.data.all isWs = true) :
    (detect name row).matched = false := by
  unfold detect
  rw [foldName_allWs h]
  exact detectCore_nil_matched _ _

theorem c9_blank_w :
    (("  ".data.all isWs = true) ∧ (detect "  " [("ETF", "Y")]).matched = false) ∧
    (("".data.all isWs = true) ∧ (detect "" [("ETF", "N")]).matched = false) :=
  ⟨⟨by decide, c9_blank "  " [("ETF", "Y")] (by decide)⟩,
   ⟨by decide, c9_blank "" [("ETF", "N")] (by decide)⟩⟩

/-- Claim C10 (confirmed): the verdict depends on the input row only through
the "ETF" field compared up to letter case; the "Test Issue" field and every
other field have no influence. -/
theorem c10_row_irrelevance (name : String) (r1 r2 : Row)
    (h : upperStr (rowGet r1 "ETF") = upperStr (rowGet r2 "ETF")) :
    detect name r1 = detect name r2 := by
  unfold detect etpFlagOf
  rw [h]

theorem c10_row_irrelevance_w :
    (upperStr (rowGet [("Test Issue", "Y"), ("ETF", "y")] "ETF") =
      upperStr (rowGet [("ETF", "Y"), ("Financial Status", "D")] "ETF")) ∧
    detect "ProShares Ultra Silver" [("Test Issue", "Y"), ("ETF", "y")] =
      detect "ProShares Ultra Silver" [("ETF", "Y"), ("Financial Status", "D")] :=
  ⟨by decide,
   c10_row_irrelevance "ProShares Ultra Silver" [("Test Issue", "Y"), ("ETF", "y")]
     [("ETF", "Y"), ("Financial Status", "D")] (by decide)⟩

/-- Claim C4 (confirmed): if the fund flag is not set and the folded name
contains none of the trust, note/ETN, or fund-word vocabulary, the
plausibility gate short-circuits: the verdict is unmatched with empty
reasons and absent category and type. -/
theorem c4_gate (name : String) (row : Row)
    (hflag : etpFlagOf row = false)
    (ht : searchTok TRUST_alts (foldName name) = false)
    (hn : searchTok ETN_alts (foldName name) = false)
    (hf : searchTok ETFWORD_alts (foldName name) = false) :
    detect name row =
      { matched := false, category := none, reasons := [], etp_type := none } := by
  simp [detect, detectCore, hflag, ht, hn, hf]

theorem c4_gate_w :
    (etpFlagOf [("ETF", "N")] = false ∧
      searchTok TRUST_alts (foldName "Apple Inc. Common Stock") = false ∧
      searchTok ETN_alts (foldName "Apple Inc. Common Stock") = false ∧
      searchTok ETFWORD_alts (foldName "Apple Inc. Common Stock") = false) ∧
    detect "Apple Inc. Common Stock" [("ETF", "N")] =
      { matched := false, category := none, reasons := [], etp_type := none } :=
  ⟨⟨by decide, by decide, by decide, by decide⟩,
   c4_gate "Apple Inc. Common Stock" [("ETF", "N")] (by decide) (by decide) (by decide)
     (by decide)⟩

/-- Claim C1, counterexample: on "ProShares UltraPro Bear Short Term" the
brand evaluation yields direction long (`brandInverse = false`), yet the
final category is an inverse category and the reason
`inverse_keyword_under_brand` is not emitted — the generic guarded inverse
detection was consulted (detect line 110) contrary to the claim. -/
theorem c1_counterexample :
    brandHitF (foldName "ProShares UltraPro Bear Short Term") = true ∧
    brandInverse (foldName "ProShares UltraPro Bear Short Term") = false ∧
    (detect "ProShares UltraPro Bear Short Term" [("ETF", "Y")]).category =
      some "leveraged_single_stock_inverse" ∧
    "inverse_keyword_under_brand" ∉
      (detect "ProShares UltraPro Bear Short Term" [("ETF", "Y")]).reasons := by
  refine ⟨by decide, by decide, by decide, by decide⟩

/-- Claim C2, counterexample: "ProShares UltraShort Short-Term Bond ETF"
matches an inverse-signal token and a duration/cash exclusion phrase and
contains no bear, -1x or -2x token, yet the verdict is matched with an
inverse category (the UltraShort brand rule bypasses the duration guard). -/
theorem c2_counterexample :
    searchTok INVERSE_alts (foldName "ProShares UltraShort Short-Term Bond ETF") = true ∧
    searchTok EXCL_alts (foldName "ProShares UltraShort Short-Term Bond ETF") = true ∧
    searchTok EXPLBEAR_alts (foldName "ProShares UltraShort Short-Term Bond ETF") = false ∧
    (detect "ProShares UltraShort Short-Term Bond ETF" [("ETF", "Y")]).matched = true ∧
    (detect "ProShares UltraShort Short-Term Bond ETF" [("ETF", "Y")]).category =
      some "leveraged_index_inverse" := by
  refine ⟨by decide, by decide, by decide, by decide, by decide⟩

/-- Claim C3, counterexample: on "ABC Notes due 2030" the verdict is
unmatched, yet the instrument type is present (`some "ETN"`): the final
fallthrough of `detect` returns the computed type with `matched = false`. -/
theorem c3_counterexample :
    (detect "ABC Notes due 2030" [("ETF", "N")]).matched = false ∧
    (detect "ABC Notes due 2030" [("ETF", "N")]).etp_type = some "ETN" := by
  refine ⟨by decide, by decide⟩

/-- Claim C5, counterexample: "Physical Gold ETF" is classified
`commodity_physical_trust` although the folded name contains no trust
vocabulary (the non-trust physical branch of `detect`, lines 154-161). -/
theorem c5_counterexample :
    (detect "Physical Gold ETF" [("ETF", "Y")]).category =
      some "commodity_physical_trust" ∧
    searchTok TRUST_alts (foldName "Physical Gold ETF") = false := by
  refine ⟨by decide, by decide⟩

/-- Claim C8, counterexample: "daily tsla bull" contains no upper-case
character at all, so no 1-5 upper-case-letter ticker token exists in it, yet
the single-stock disambiguator tags it (the patterns carry the ignore-case
flag, which in Python also makes the upper-case letter class match
lower-case letters). -/
theorem c8_counterexample :
    singleStockHint ("daily tsla bull".data) = true ∧
    ("daily tsla bull".data.all (fun c => !(c.isUpper))) = true := by
  refine ⟨by decide, by decide⟩

/-! ### Branch analysis of `detectCore`. -/

theorem typeReason_ne_nil : ∀ (a b c d e : Bool), (a || c || (b && e) || d) = true →
    reasonsPre a b c d e ≠ [] := by
  decide

theorem gate_and_comm : ∀ (a b c d e : Bool),
    (a || b || c || d) = true → e = true → (a || c || (b && e) || d) = true := by
  decide

theorem trust_to_or : ∀ (a b c d e : Bool),
    (b && e) = true → (a || c || (b && e) || d) = true := by
  decide

theorem ctx_ne_nil : ∀ (x y : Bool), (x || y) = true →
    ((if x then ["leverage_context"] else ([] : List String)) ++
      (if y then ["inverse_context"] else [])) ≠ [] := by
  decide

/-- The invariant of the verdict: a present category forces a match, and a
match forces a non-empty reason list. -/
theorem detectCore_inv (raw n : Chars) (f : Bool) :
    ((detectCore raw n f).category ≠ none → (detectCore raw n f).matched = true) ∧
    ((detectCore raw n f).matched = true → (detectCore raw n f).reasons ≠ []) := by
  unfold detectCore
  split
  · exact ⟨fun h => absurd rfl h, fun h => by cases h⟩
  next hgate =>
    have hgate' : (f || searchTok TRUST_alts n || searchTok ETN_alts n ||
        searchTok ETFWORD_alts n) = true := by
      cases hx : (f || searchTok TRUST_alts n || searchTok ETN_alts n ||
        searchTok ETFWORD_alts n)
      · exact absurd (by rw [hx]; rfl) hgate
      · rfl
    split
    next hbrand =>
      exact ⟨fun _ => rfl, fun _ => by simp⟩
    next hbrand =>
      split
      next hlev =>
        split
        next hss => exact ⟨fun _ => rfl, fun _ => by simp⟩
        next hss =>
          refine ⟨fun _ => rfl, fun _ hcontra => ?_⟩
          rcases List.append_eq_nil.mp hcontra with ⟨_, h2⟩
          exact ctx_ne_nil _ _ hlev h2
      next hlev =>
        split
        next hfut =>
          exact ⟨fun _ => rfl, fun _ => by simp⟩
        next hfut =>
          split
          next htr =>
            refine ⟨fun _ => rfl, fun _ hcontra => ?_⟩
            rcases List.append_eq_nil.mp hcontra with ⟨h1, _⟩
            exact typeReason_ne_nil _ _ _ _ _ (trust_to_or _ _ _ _ _ htr) h1
          next htr =>
            split
            next hph =>
              exact ⟨fun _ => rfl, fun _ => by simp⟩
            next hph =>
              exact ⟨fun h => absurd rfl h, fun h => by cases h⟩

/-- Claim C3, amended part (confirmed for category and reasons): a present
category occurs only on matched verdicts, and matched verdicts carry a
non-empty reason trail.  (The instrument type, by contrast, may be present
on unmatched verdicts — see the counterexample.) -/
theorem c3_amended (name : String) (row : Row) :
    ((detect name row).category ≠ none → (detect name row).matched = true) ∧
    ((detect name row).matched = true → (detect name row).reasons ≠ []) :=
  detectCore_inv name.data (foldName name) (etpFlagOf row)

theorem c3_amended_w :
    (detect "ProShares Ultra Silver" [("ETF", "Y")]).matched = true ∧
    (detect "ProShares Ultra Silver" [("ETF", "Y")]).reasons ≠ [] :=
  ⟨(c3_amended "ProShares Ultra Silver" [("ETF", "Y")]).1 (by decide),
   (c3_amended "ProShares Ultra Silver" [("ETF", "Y")]).2 (by decide)⟩

/-- Only the physical/trust branches of the pipeline produce the two
trust-family categories, and each of those branches requires a commodity hit
together with trust vocabulary or physical wording. -/
theorem detectCore_trustcat (raw n : Chars) (f : Bool)
    (h : (detectCore raw n f).category = some "commodity_physical_trust" ∨
      (detectCore raw n f).category = some "crypto_trust") :
    commodityHit n = true ∧
      (searchTok TRUST_alts n = true ∨ searchTok PHYS_alts n = true) := by
  unfold detectCore at h
  revert h
  split
  · intro h; rcases h with h | h <;> simp at h
  next hgate =>
    split
    next hbrand =>
      intro h
      exfalso
      rcases h with h | h <;> simp only [Option.some.injEq] at h <;>
        (revert h; split <;> split <;> intro h <;> exact absurd h (by decide))
    next hbrand =>
      split
      next hlev =>
        split
        next hss =>
          intro h
          exfalso
          rcases h with h | h <;> simp only [Option.some.injEq] at h <;>
            (revert h; split <;> intro h <;> exact absurd h (by decide))
        next hss =>
          intro h
          exfalso
          rcases h with h | h <;> simp only [Option.some.injEq] at h <;>
            (revert h; split <;> intro h <;> exact absurd h (by decide))
      next hlev =>
        split
        next hfut =>
          intro h
          exfalso
          rcases h with h | h <;> simp only [Option.some.injEq] at h <;>
            (revert h; split <;> intro h <;> exact absurd h (by decide))
        next hfut =>
          split
          next htr =>
            intro _
            rcases Bool.and_eq_true _ _ ▸ htr with ⟨h1, h2⟩
            exact ⟨h2, Or.inl h1⟩
          next htr =>
            split
            next hph =>
              intro _
              rcases Bool.and_eq_true _ _ ▸ hph with ⟨h1, h2⟩
              exact ⟨h1, Or.inr h2⟩
            next hph =>
              intro h; rcases h with h | h <;> simp at h

/-- Claim C5, amended (the trust-vocabulary requirement is weakened to
"trust vocabulary or physical/bullion wording", because of the non-trust
physical branch): the trust-family categories require commodity/crypto
vocabulary, and trust vocabulary without commodity vocabulary never yields
them. -/
theorem c5_amended (name : String) (row : Row)
    (h : (detect name row).category = some "commodity_physical_trust" ∨
      (detect name row).category = some "crypto_trust") :
    commodityHit (foldName name) = true ∧
      (searchTok TRUST_alts (foldName name) = true ∨
        searchTok PHYS_alts (foldName name) = true) :=
  detectCore_trustcat name.data (foldName name) (etpFlagOf row) h

/-- If the guarded inverse context holds, every matched verdict carries an
inverse category: the brand branch and the leverage/inverse branch both
consult it, and the later branches are unreachable. -/
theorem detectCore_invctx_cat (raw n : Chars) (f : Bool)
    (hic : isInverseContext n = true)
    (hm : (detectCore raw n f).matched = true) :
    isInvCatB (detectCore raw n f).category = true := by
  revert hm
  unfold detectCore
  split
  · intro hm; cases hm
  next hgate =>
    split
    next hbrand =>
      intro _
      cases hss : singleStockHint raw <;> simp [hic, hss, isInvCatB]
    next hbrand =>
      split
      next hlev =>
        split
        next hss => intro _; simp [hic, isInvCatB]
        next hss => intro _; simp [hic, isInvCatB]
      next hlev =>
        intro _
        exact absurd (by rw [hic]; exact Bool.or_true _) hlev

/-- If the guarded inverse context fails and the brand direction is long,
no branch of the pipeline can produce an inverse category. -/
theorem detectCore_noinv_cat (raw n : Chars) (f : Bool)
    (hic : isInverseContext n = false) (hbi : brandInverse n = false) :
    isInvCatB (detectCore raw n f).category = false := by
  unfold detectCore
  split
  · decide
  next hgate =>
    split
    next hbrand =>
      cases hss : singleStockHint raw <;> simp [hic, hbi, hss, isInvCatB]
    next hbrand =>
      split
      next hlev =>
        split
        next hss => simp [hic, isInvCatB]
        next hss => simp [hic, isInvCatB]
      next hlev =>
        split
        next hfut =>
          cases hcr : searchTok CRYPTO_alts n <;> simp [hcr, isInvCatB]
        next hfut =>
          split
          next htr =>
            cases hcr : searchTok CRYPTO_alts n <;> simp [hcr, isInvCatB]
          next htr =>
            split
            next hph =>
              cases hcr : searchTok CRYPTO_alts n <;> simp [hcr, isInvCatB]
            next hph => rfl

/-- Claim C2, amended: under an inverse-signal token plus a duration/cash
exclusion, an explicit bear, -1x or -2x token forces every matched verdict to an
inverse category; without such a token, and provided the ProShares
UltraShort brand rule does not fire (the amendment the counterexample
forces), the verdict is unmatched or its category is not inverse. -/
theorem c2_amended (name : String) (row : Row) :
    ((searchTok INVERSE_alts (foldName name) = true) →
     (searchTok EXCL_alts (foldName name) = true) →
     (searchTok EXPLBEAR_alts (foldName name) = true) →
     (detect name row).matched = true →
     isInvCatB (detect name row).category = true) ∧
    ((searchTok INVERSE_alts (foldName name) = true) →
     (searchTok EXCL_alts (foldName name) = true) →
     (searchTok EXPLBEAR_alts (foldName name) = false) →
     (searchTok PRO_ULTRASHORT_alts (foldName name) = false) →
     isInvCatB (detect name row).category = false) := by
  constructor
  · intro hi he hx hm
    have hic : isInverseContext (foldName name) = true := by
      simp [isInverseContext, hi, he, hx]
    exact detectCore_invctx_cat name.data (foldName name) (etpFlagOf row) hic hm
  · intro hi he hx hus
    have hic : isInverseContext (foldName name) = false := by
      simp [isInverseContext, hi, he, hx]
    have hbi : brandInverse (foldName name) = false := by
      simp [brandInverse, brandSecondary, hus, he]
    exact detectCore_noinv_cat name.data (foldName name) (etpFlagOf row) hic hbi

theorem c2_amended_w :
    isInvCatB (detect "ProShares Short Term Bear ETF" [("ETF", "Y")]).category = true ∧
    isInvCatB (detect "PIMCO Ultra Short Government Active ETF" [("ETF", "Y")]).category = false :=
  ⟨(c2_amended "ProShares Short Term Bear ETF" [("ETF", "Y")]).1
      (by decide) (by decide) (by decide) (by decide),
   (c2_amended "PIMCO Ultra Short Government Active ETF" [("ETF", "Y")]).2
      (by decide) (by decide) (by decide) (by decide)⟩

/-! ### Reason-membership analysis for the brand branch. -/

theorem inv_kw_not_pre : ∀ (a b c d e : Bool),
    "inverse_keyword_under_brand" ∉ reasonsPre a b c d e := by
  decide

theorem ultra2x_not_pre : ∀ (a b c d e : Bool),
    "brand_proshares_ultra_implies_2x" ∉ reasonsPre a b c d e := by
  decide

theorem multReason_cases (n : Chars) :
    multReasonOf (brandMult n) = "implied_multiplier_2x" ∨
    multReasonOf (brandMult n) = "implied_multiplier_3x" ∨
    multReasonOf (brandMult n) = "implied_multiplier_unknown" := by
  unfold brandMult
  cases h3 : searchTok PRO_ULTRASHORT_alts n <;>
    cases h2 : searchTok PRO_ULTRA_alts n <;>
      cases h1 : searchTok ULTRAPRO_alts n <;> decide

theorem inv_kw_mem_brand (n : Chars) :
    ("inverse_keyword_under_brand" ∈ brandReasons n) ↔ brandSecondary n = true := by
  unfold brandReasons
  cases h1 : searchTok ULTRAPRO_alts n <;>
    cases h2 : searchTok PRO_ULTRA_alts n <;>
      cases h3 : searchTok PRO_ULTRASHORT_alts n <;>
        cases h4 : brandSecondary n <;> decide

theorem ultra2x_mem_brand (n : Chars)
    (h : "brand_proshares_ultra_implies_2x" ∈ brandReasons n) :
    searchTok PRO_ULTRA_alts n = true := by
  revert h
  unfold brandReasons
  cases h1 : searchTok ULTRAPRO_alts n <;>
    cases h2 : searchTok PRO_ULTRA_alts n <;>
      cases h3 : searchTok PRO_ULTRASHORT_alts n <;>
        cases h4 : brandSecondary n <;> decide

theorem inv_kw_ne_mult (n : Chars) :
    "inverse_keyword_under_brand" ∉ [multReasonOf (brandMult n)] := by
  rcases multReason_cases n with h | h | h <;> rw [h] <;> decide

theorem ultra2x_ne_mult (n : Chars) :
    "brand_proshares_ultra_implies_2x" ∉ [multReasonOf (brandMult n)] := by
  rcases multReason_cases n with h | h | h <;> rw [h] <;> decide

/-- The brand branch of the pipeline: matched, category direction governed by
`brandInverse` together with the generic guarded inverse context, and
`inverse_keyword_under_brand` emitted exactly when the secondary check
fires. -/
theorem detectCore_brand (raw n : Chars) (f : Bool)
    (hb : brandHitF n = true)
    (hg : (f || searchTok TRUST_alts n || searchTok ETN_alts n ||
      searchTok ETFWORD_alts n) = true) :
    (detectCore raw n f).matched = true ∧
    isInvCatB (detectCore raw n f).category = (brandInverse n || isInverseContext n) ∧
    ("inverse_keyword_under_brand" ∈ (detectCore raw n f).reasons ↔
      brandSecondary n = true) := by
  unfold detectCore
  rw [hg, hb]
  rw [if_neg (by decide : ¬((!true) = true))]
  rw [if_pos (rfl : true = true)]
  refine ⟨rfl, ?_, ?_⟩
  · cases hss : singleStockHint raw <;>
      cases hinv : (brandInverse n || isInverseContext n) <;>
        simp [hss, hinv, isInvCatB]
  · constructor
    · intro h
      rcases List.mem_append.mp h with h | h
      · rcases List.mem_append.mp h with h | h
        · exact absurd h (inv_kw_not_pre _ _ _ _ _)
        · exact (inv_kw_mem_brand n).mp h
      · exact absurd h (inv_kw_ne_mult n)
    · intro hs
      exact List.mem_append.mpr (Or.inl (List.mem_append.mpr (Or.inr
        ((inv_kw_mem_brand n).mpr hs))))

/-- Claim C1, amended: when a brand rule fires (and the plausibility gate
passes) the verdict is matched; its direction is inverse exactly when the
brand evaluation yields inverse OR the generic guarded inverse-context
matcher fires — the generic inverse detection IS consulted, contrary to the
original claim — and `inverse_keyword_under_brand` is emitted exactly when
the brand secondary check fires. -/
theorem c1_amended (name : String) (row : Row)
    (hb : brandHitF (foldName name) = true)
    (hg : (etpFlagOf row || searchTok TRUST_alts (foldName name) ||
      searchTok ETN_alts (foldName name) || searchTok ETFWORD_alts (foldName name)) = true) :
    (detect name row).matched = true ∧
    isInvCatB (detect name row).category =
      (brandInverse (foldName name) || isInverseContext (foldName name)) ∧
    ("inverse_keyword_under_brand" ∈ (detect name row).reasons ↔
      brandSecondary (foldName name) = true) :=
  detectCore_brand name.data (foldName name) (etpFlagOf row) hb hg

theorem c1_amended_w :
    (brandHitF (foldName "ProShares Ultra Silver") = true ∧
     (etpFlagOf [("ETF", "Y")] || searchTok TRUST_alts (foldName "ProShares Ultra Silver") ||
       searchTok ETN_alts (foldName "ProShares Ultra Silver") ||
       searchTok ETFWORD_alts (foldName "ProShares Ultra Silver")) = true) ∧
    ((detect "ProShares Ultra Silver" [("ETF", "Y")]).matched = true ∧
     isInvCatB (detect "ProShares Ultra Silver" [("ETF", "Y")]).category =
       (brandInverse (foldName "ProShares Ultra Silver") ||
         isInverseContext (foldName "ProShares Ultra Silver")) ∧
     ("inverse_keyword_under_brand" ∈
        (detect "ProShares Ultra Silver" [("ETF", "Y")]).reasons ↔
       brandSecondary (foldName "ProShares Ultra Silver") = true)) :=
  ⟨⟨by decide, by decide⟩,
   c1_amended "ProShares Ultra Silver" [("ETF", "Y")] (by decide) (by decide)⟩

theorem ultra2x_not_ctx : ∀ (x y : Bool),
    "brand_proshares_ultra_implies_2x" ∉
      ((if x then ["leverage_context"] else ([] : List String)) ++
        (if y then ["inverse_context"] else [])) := by
  decide

theorem ultra2x_not_phys : ∀ (x : Bool),
    "brand_proshares_ultra_implies_2x" ∉
      (if x then ["physical_keyword"] else ([] : List String)) := by
  decide

/-- The reason `brand_proshares_ultra_implies_2x` is emitted only when the
`PRO_ULTRA` pattern actually matched the folded name: no other reason string
of any branch equals it. -/
theorem reasons_ultra_imp (raw n : Chars) (f : Bool)
    (h : "brand_proshares_ultra_implies_2x" ∈ (detectCore raw n f).reasons) :
    searchTok PRO_ULTRA_alts n = true := by
  revert h
  unfold detectCore
  split
  · intro h; simp at h
  next hgate =>
    split
    next hbrand =>
      intro h
      rcases List.mem_append.mp h with h | h
      · rcases List.mem_append.mp h with h | h
        · exact absurd h (ultra2x_not_pre _ _ _ _ _)
        · exact ultra2x_mem_brand n h
      · exact absurd h (ultra2x_ne_mult n)
    next hbrand =>
      split
      next hlev =>
        split
        next hss =>
          intro h
          exfalso
          rcases List.mem_append.mp h with h | h
          · rcases List.mem_append.mp h with h | h
            · exact absurd h (ultra2x_not_pre _ _ _ _ _)
            · exact absurd h (ultra2x_not_ctx _ _)
          · rw [List.mem_singleton] at h
            exact absurd h (by decide)
        next hss =>
          intro h
          exfalso
          rcases List.mem_append.mp h with h | h
          · exact absurd h (ultra2x_not_pre _ _ _ _ _)
          · exact absurd h (ultra2x_not_ctx _ _)
      next hlev =>
        split
        next hfut =>
          intro h
          exfalso
          rcases List.mem_append.mp h with h | h
          · exact absurd h (ultra2x_not_pre _ _ _ _ _)
          · rw [List.mem_singleton] at h
            exact absurd h (by decide)
        next hfut =>
          split
          next htr =>
            intro h
            exfalso
            rcases List.mem_append.mp h with h | h
            · exact absurd h (ultra2x_not_pre _ _ _ _ _)
            · exact absurd h (ultra2x_not_phys _)
          next htr =>
            split
            next hph =>
              intro h
              exfalso
              rcases List.mem_append.mp h with h | h
              · exact absurd h (ultra2x_not_pre _ _ _ _ _)
              · rw [List.mem_singleton] at h
                exact absurd h (by decide)
            next hph =>
              intro h
              simp at h

/-- Claim C6 (confirmed): the reason `brand_proshares_ultra_implies_2x` is
emitted only when the name carries an occurrence of the "proshares ultra"
token whose "ultra" is NOT immediately (character-contiguously, as in
"UltraShort") followed by "short" — the word boundary of the pattern forbids
any word character there; conversely, on a name in which every occurrence of
"ultra" is immediately followed by "short", brand rule 2 never fires.
(With an intervening space, as in "Ultra Short Municipal", the pattern does
match; "immediately followed" is read contiguously, matching the source
regex.) -/
theorem c6_brand_ultra (name : String) (row : Row) :
    (("brand_proshares_ultra_implies_2x" ∈ (detect name row).reasons) →
      ∃ pre post, foldName name = pre ++ ("proshares ultra".data) ++ post ∧
        isBdry (prevAt none pre) (some 'p') = true ∧
        isBdry (some 'a') post.head? = true ∧
        (("short".data).isPrefixOf post) = false) ∧
    ((allOccFollowedBy ("ultra".data) ("short".data) (foldName name) = true) →
      "brand_proshares_ultra_implies_2x" ∉ (detect name row).reasons) := by
  constructor
  · intro h
    have hp : searchTok PRO_ULTRA_alts (foldName name) = true :=
      reasons_ultra_imp name.data (foldName name) (etpFlagOf row) h
    obtain ⟨t, ht, pre, post, hs, hb1, hb2⟩ := searchTok_ex (by decide) hp
    have ht' : t = "proshares ultra".data := by
      simpa [PRO_ULTRA_alts] using ht
    subst ht'
    have hh : ("proshares ultra".data).head? = some 'p' := rfl
    have hL : ("proshares ultra".data).getLast? = some 'a' := by decide
    rw [hh] at hb1
    rw [hL] at hb2
    refine ⟨pre, post, hs, hb1, hb2, ?_⟩
    have hb2' : (wordO (some 'a') != wordO post.head?) = true := hb2
    have hw : wordO post.head? = false := bdry_right_false hb2' (by decide)
    have hshort : ("short".data) = 's' :: ("hort".data) := rfl
    rw [hshort]
    exact prefl_false_of_head_not_word _ _ (by decide) hw
  · intro hall hmem
    have hp : searchTok PRO_ULTRA_alts (foldName name) = true :=
      reasons_ultra_imp name.data (foldName name) (etpFlagOf row) hmem
    obtain ⟨t, ht, pre, post, hs, hb1, hb2⟩ := searchTok_ex (by decide) hp
    have ht' : t = "proshares ultra".data := by
      simpa [PRO_ULTRA_alts] using ht
    subst ht'
    have hsplit : ("proshares ultra".data) = ("proshares ".data) ++ ("ultra".data) := by
      decide
    have hs' : foldName name = (pre ++ "proshares ".data) ++ ("ultra".data ++ post) := by
      rw [hs, hsplit]
      simp [List.append_assoc]
    have hpre : ("short".data).isPrefixOf post = true :=
      allOcc_ex (by decide) (pre ++ "proshares ".data) (foldName name) post hall hs'
    obtain ⟨r, hr⟩ := prefl_ex hpre
    have hL : ("proshares ultra".data).getLast? = some 'a' := by decide
    rw [hL] at hb2
    have hb2' : (wordO (some 'a') != wordO post.head?) = true := hb2
    have hw : wordO post.head? = false := bdry_right_false hb2' (by decide)
    rw [hr] at hw
    have hhd : (("short".data ++ r).head?) = some 's' := rfl
    rw [hhd] at hw
    exact absurd hw (by decide)

theorem c6_brand_ultra_w :
    (("brand_proshares_ultra_implies_2x" ∈
        (detect "ProShares Ultra Silver" [("ETF", "Y")]).reasons) ∧
     (∃ pre post,
        foldName "ProShares Ultra Silver" = pre ++ ("proshares ultra".data) ++ post ∧
        isBdry (prevAt none pre) (some 'p') = true ∧
        isBdry (some 'a') post.head? = true ∧
        (("short".data).isPrefixOf post) = false)) ∧
    ((allOccFollowedBy ("ultra".data) ("short".data)
        (foldName "ProShares UltraShort Dow30") = true) ∧
     "brand_proshares_ultra_implies_2x" ∉
       (detect "ProShares UltraShort Dow30" [("ETF", "Y")]).reasons) :=
  ⟨⟨by decide, (c6_brand_ultra "ProShares Ultra Silver" [("ETF", "Y")]).1 (by decide)⟩,
   ⟨by decide, (c6_brand_ultra "ProShares UltraShort Dow30" [("ETF", "Y")]).2 (by decide)⟩⟩

theorem commodity_last_word : ∀ t ∈ COMMODITY_alts, wordO t.getLast? = true := by
  decide

/-! ### Case-invariance of the single-stock scanner: the shapes are compiled
with the ignore-case flag, so lower-casing the input does not change the
outcome. -/

theorem lowerChar_mem_or (c : Char) :
    lowerChar c ∈ ['a', 'b', 'c', 'd', 'e', 'f', 'g', 'h', 'i', 'j', 'k', 'l', 'm',
      'n', 'o', 'p', 'q', 'r', 's', 't', 'u', 'v', 'w', 'x', 'y', 'z'] ∨
      lowerChar c = c := by
  unfold lowerChar
  split <;> first | (left; decide) | (right; rfl)

theorem lowerChar_fix_of_mem {d : Char}
    (hd : d ∈ ['a', 'b', 'c', 'd', 'e', 'f', 'g', 'h', 'i', 'j', 'k', 'l', 'm',
      'n', 'o', 'p', 'q', 'r', 's', 't', 'u', 'v', 'w', 'x', 'y', 'z']) :
    lowerChar d = d := by
  fin_cases hd <;> rfl

theorem lowerChar_idem (c : Char) : lowerChar (lowerChar c) = lowerChar c := by
  rcases lowerChar_mem_or c with h | h
  · exact lowerChar_fix_of_mem h
  · rw [h]
    exact h

theorem isWs_lowerChar (c : Char) : isWs (lowerChar c) = isWs c := by
  unfold lowerChar
  split <;> rfl

theorem isAlpha_lowerChar (c : Char) : (lowerChar c).isAlpha = c.isAlpha := by
  unfold lowerChar
  split <;> rfl

theorem isWordChar_lowerChar (c : Char) : isWordChar (lowerChar c) = isWordChar c := by
  unfold lowerChar
  split <;> rfl

theorem rparen_lowerChar (c : Char) : (lowerChar c == (')')) = (c == (')')) := by
  unfold lowerChar
  split <;> rfl

theorem wordO_map_opt (p : Option Char) : wordO (Option.map lowerChar p) = wordO p := by
  cases p <;> simp [wordO, isWordChar_lowerChar]

theorem wordO_map_head (l : Chars) : wordO ((l.map lowerChar).head?) = wordO l.head? := by
  cases l <;> simp [wordO, isWordChar_lowerChar]

theorem head_rparen_map (l : Chars) :
    ((l.map lowerChar).head? == some (')')) = (l.head? == some (')')) := by
  cases l with
  | nil => rfl
  | cons c t => simpa using rparen_lowerChar c

theorem isEmpty_map (l : Chars) : (l.map lowerChar).isEmpty = l.isEmpty := by
  cases l <;> rfl

theorem mapDrop (l : Chars) (k : Nat) :
    (l.map lowerChar).drop k = (l.drop k).map lowerChar :=
  (List.map_drop lowerChar l k).symm

theorem takeWhile_map_inv {p : Char → Bool} (hp : ∀ c, p (lowerChar c) = p c) :
    ∀ l : Chars, (l.map lowerChar).takeWhile p = (l.takeWhile p).map lowerChar := by
  intro l
  induction l with
  | nil => rfl
  | cons c t ih =>
    simp only [List.map_cons, List.takeWhile_cons, hp c]
    cases hpc : p c <;> simp [ih]

theorem dropWhile_map_inv {p : Char → Bool} (hp : ∀ c, p (lowerChar c) = p c) :
    ∀ l : Chars, (l.map lowerChar).dropWhile p = (l.dropWhile p).map lowerChar := by
  intro l
  induction l with
  | nil => rfl
  | cons c t ih =>
    simp only [List.map_cons, List.dropWhile_cons, hp c]
    cases hpc : p c <;> simp [ih]

theorem mapTakeWs (l : Chars) :
    (l.map lowerChar).takeWhile isWs = (l.takeWhile isWs).map lowerChar :=
  takeWhile_map_inv isWs_lowerChar l

theorem mapDropWs (l : Chars) :
    (l.map lowerChar).dropWhile isWs = (l.dropWhile isWs).map lowerChar :=
  dropWhile_map_inv isWs_lowerChar l

theorem mapTakeAl (l : Chars) :
    (l.map lowerChar).takeWhile Char.isAlpha = (l.takeWhile Char.isAlpha).map lowerChar :=
  takeWhile_map_inv isAlpha_lowerChar l

theorem mapDropAl (l : Chars) :
    (l.map lowerChar).dropWhile Char.isAlpha = (l.dropWhile Char.isAlpha).map lowerChar :=
  dropWhile_map_inv isAlpha_lowerChar l

theorem ciStarts_map : ∀ (pat l : Chars), ciStarts pat (l.map lowerChar) = ciStarts pat l := by
  intro pat
  induction pat with
  | nil => intro l; rfl
  | cons p ps ih =>
    intro l
    cases l with
    | nil => rfl
    | cons c t => simp only [List.map_cons, ciStarts, lowerChar_idem, ih]

theorem tickerThenBdry_map (l : Chars) :
    tickerThenBdry (l.map lowerChar) = tickerThenBdry l := by
  unfold tickerThenBdry
  simp only [mapTakeWs, mapDropWs, mapTakeAl, mapDropAl, isEmpty_map, List.length_map,
    wordO_map_head]

theorem matchP1At_map (prev : Option Char) (l : Chars) :
    matchP1At (Option.map lowerChar prev) (l.map lowerChar) = matchP1At prev l := by
  unfold matchP1At
  simp only [wordO_map_opt, ciStarts_map, mapDrop, mapTakeWs, mapDropWs, mapTakeAl,
    mapDropAl, isEmpty_map, List.length_map, wordO_map_head]

theorem matchP2At_map (prev : Option Char) (l : Chars) :
    matchP2At (Option.map lowerChar prev) (l.map lowerChar) = matchP2At prev l := by
  unfold matchP2At
  simp only [wordO_map_opt, ciStarts_map, mapDrop, tickerThenBdry_map]

theorem multTokAt_map (l : Chars) : multTokAt (l.map lowerChar) = multTokAt l := by
  unfold multTokAt
  simp only [ciStarts_map, mapDrop, wordO_map_head]

theorem matchP3At_map (prev : Option Char) (l : Chars) :
    matchP3At (Option.map lowerChar prev) (l.map lowerChar) = matchP3At prev l := by
  unfold matchP3At
  simp only [wordO_map_opt, ciStarts_map, mapDrop, mapTakeWs, mapDropWs, mapTakeAl,
    mapDropAl, isEmpty_map, List.length_map, wordO_map_head, multTokAt_map]

theorem matchP4At_map (prev : Option Char) (l : Chars) :
    matchP4At (Option.map lowerChar prev) (l.map lowerChar) = matchP4At prev l := by
  unfold matchP4At
  simp only [wordO_map_opt, ciStarts_map, mapDrop, mapTakeAl, mapDropAl, isEmpty_map,
    List.length_map, head_rparen_map, mapDropWs]

theorem singleStockAux_map : ∀ (l : Chars) (prev : Option Char),
    singleStockAux (Option.map lowerChar prev) (l.map lowerChar) = singleStockAux prev l := by
  intro l
  induction l with
  | nil => intro prev; rfl
  | cons c t ih =>
    intro prev
    have hrec : singleStockAux (some (lowerChar c)) (List.map lowerChar t) =
        singleStockAux (some c) t := ih (some c)
    show (matchP1At (Option.map lowerChar prev) (List.map lowerChar (c :: t)) ||
          matchP2At (Option.map lowerChar prev) (List.map lowerChar (c :: t)) ||
          matchP3At (Option.map lowerChar prev) (List.map lowerChar (c :: t)) ||
          matchP4At (Option.map lowerChar prev) (List.map lowerChar (c :: t)) ||
          singleStockAux (some (lowerChar c)) (List.map lowerChar t)) =
        (matchP1At prev (c :: t) || matchP2At prev (c :: t) || matchP3At prev (c :: t) ||
          matchP4At prev (c :: t) || singleStockAux (some c) t)
    rw [matchP1At_map, matchP2At_map, matchP3At_map, matchP4At_map, hrec]

theorem singleStockHint_map (l : Chars) :
    singleStockHint (l.map lowerChar) = singleStockHint l :=
  singleStockAux_map l none

/-! ### Soundness of the single-stock scanner: a successful match always
contains a maximal 1-to-5-letter run with non-word surroundings (the ticker
slot). -/

theorem bnot_true {b : Bool} (h : (!b) = true) : b = false := by
  cases b
  · rfl
  · exact absurd h (by decide)

theorem takeWhile_all (p : Char → Bool) (l : Chars) : (l.takeWhile p).all p = true := by
  rw [List.all_eq_true]
  intro c hc
  exact takeWhile_mem_pred hc

theorem pos_of_isEmpty_false {l : Chars} (h : l.isEmpty = false) : 1 ≤ l.length := by
  cases l
  · cases h
  · simp

theorem ne_nil_of_isEmpty_false {l : Chars} (h : l.isEmpty = false) : l ≠ [] := by
  cases l
  · cases h
  · simp

theorem isWs_not_word {c : Char} (h : isWs c = true) : isWordChar c = false := by
  simp only [isWs, Bool.or_eq_true, beq_iff_eq] at h
  rcases h with ((((h | h) | h) | h) | h) | h <;> subst h <;> decide

theorem prevAt_none (pre : Chars) : prevAt none pre = pre.getLast? := by
  cases hg : pre.getLast? <;> simp [prevAt, hg]

theorem prevAt_ws_append (prev : Option Char) (a w : Chars) (hw : w ≠ [])
    (hws : ∀ c ∈ w, isWs c = true) : wordO (prevAt prev (a ++ w)) = false := by
  have hgl : (a ++ w).getLast? = w.getLast? := List.getLast?_append_of_ne_nil _ hw
  unfold prevAt
  rw [hgl]
  cases hg : w.getLast? with
  | none => exact absurd (List.getLast?_eq_none_iff.mp hg) hw
  | some c => simp [wordO, isWs_not_word (hws c (mem_of_getLast hg))]

theorem tickerThenBdry_sound {s1 : Chars} (h : tickerThenBdry s1 = true) :
    ∃ w run post, s1 = w ++ run ++ post ∧ w ≠ [] ∧ (∀ c ∈ w, isWs c = true) ∧
      run.all Char.isAlpha = true ∧ 1 ≤ run.length ∧ run.length ≤ 5 ∧
      wordO post.head? = false := by
  unfold tickerThenBdry at h
  simp only [Bool.and_eq_true] at h
  obtain ⟨hw, ⟨hrun, hble⟩, hbd⟩ := h
  have h1 : s1 = s1.takeWhile isWs ++ s1.dropWhile isWs :=
    (List.takeWhile_append_dropWhile _ _).symm
  have h2 : s1.dropWhile isWs =
      (s1.dropWhile isWs).takeWhile Char.isAlpha ++
        (s1.dropWhile isWs).dropWhile Char.isAlpha :=
    (List.takeWhile_append_dropWhile _ _).symm
  refine ⟨s1.takeWhile isWs, (s1.dropWhile isWs).takeWhile Char.isAlpha,
    (s1.dropWhile isWs).dropWhile Char.isAlpha, ?_,
    ne_nil_of_isEmpty_false (bnot_true hw), fun c hc => takeWhile_mem_pred hc,
    takeWhile_all _ _, pos_of_isEmpty_false (bnot_true hrun),
    Nat.le_of_ble_eq_true hble, bnot_true hbd⟩
  rw [List.append_assoc, ← h2, ← h1]

theorem matchP1At_sound {prev : Option Char} {s : Chars} (h : matchP1At prev s = true) :
    ∃ pre run post, s = pre ++ run ++ post ∧ run.all Char.isAlpha = true ∧
      1 ≤ run.length ∧ run.length ≤ 5 ∧
      wordO (prevAt prev pre) = false ∧ wordO post.head? = false := by
  unfold matchP1At at h
  simp only [Bool.and_eq_true, Bool.or_eq_true] at h
  obtain ⟨⟨hprev, hdaily⟩, hw1, ⟨hrun, hble⟩, hw2, hci, hbd⟩ := h
  have h1 : s.drop 5 = (s.drop 5).takeWhile isWs ++ (s.drop 5).dropWhile isWs :=
    (List.takeWhile_append_dropWhile _ _).symm
  have h2 : (s.drop 5).dropWhile isWs =
      ((s.drop 5).dropWhile isWs).takeWhile Char.isAlpha ++
        ((s.drop 5).dropWhile isWs).dropWhile Char.isAlpha :=
    (List.takeWhile_append_dropWhile _ _).symm
  refine ⟨s.take 5 ++ (s.drop 5).takeWhile isWs,
    ((s.drop 5).dropWhile isWs).takeWhile Char.isAlpha,
    ((s.drop 5).dropWhile isWs).dropWhile Char.isAlpha, ?_,
    takeWhile_all _ _, pos_of_isEmpty_false (bnot_true hrun),
    Nat.le_of_ble_eq_true hble, ?_, ?_⟩
  · conv_lhs => rw [← List.take_append_drop 5 s, h1, h2]
    simp [List.append_assoc]
  · exact prevAt_ws_append prev _ _ (ne_nil_of_isEmpty_false (bnot_true hw1))
      (fun c hc => takeWhile_mem_pred hc)
  · obtain ⟨c, hc, hcws⟩ := head_of_takeWhile_ne (ne_nil_of_isEmpty_false (bnot_true hw2))
    rw [hc]
    simp [wordO, isWs_not_word hcws]

theorem sound_after_kw (prev : Option Char) {s : Chars} (k : Nat)
    (ht : tickerThenBdry (s.drop k) = true) :
    ∃ pre run post, s = pre ++ run ++ post ∧ run.all Char.isAlpha = true ∧
      1 ≤ run.length ∧ run.length ≤ 5 ∧
      wordO (prevAt prev pre) = false ∧ wordO post.head? = false := by
  obtain ⟨w, run, post, hsplit, hw, hws, hal, hlen1, hlen5, hbd⟩ := tickerThenBdry_sound ht
  refine ⟨s.take k ++ w, run, post, ?_, hal, hlen1, hlen5,
    prevAt_ws_append prev _ _ hw hws, hbd⟩
  conv_lhs => rw [← List.take_append_drop k s, hsplit]
  simp [List.append_assoc]

theorem matchP2At_sound {prev : Option Char} {s : Chars} (h : matchP2At prev s = true) :
    ∃ pre run post, s = pre ++ run ++ post ∧ run.all Char.isAlpha = true ∧
      1 ≤ run.length ∧ run.length ≤ 5 ∧
      wordO (prevAt prev pre) = false ∧ wordO post.head? = false := by
  unfold matchP2At at h
  simp only [Bool.and_eq_true, Bool.or_eq_true] at h
  obtain ⟨hprev, h⟩ := h
  rcases h with ⟨hci, ht⟩ | ⟨hci, ht⟩
  · exact sound_after_kw prev 4 ht
  · exact sound_after_kw prev 5 ht

theorem matchP3At_sound {prev : Option Char} {s : Chars} (h : matchP3At prev s = true) :
    ∃ pre run post, s = pre ++ run ++ post ∧ run.all Char.isAlpha = true ∧
      1 ≤ run.length ∧ run.length ≤ 5 ∧
      wordO (prevAt prev pre) = false ∧ wordO post.head? = false := by
  unfold matchP3At at h
  simp only [Bool.and_eq_true, Bool.or_eq_true] at h
  obtain ⟨hprev, ⟨hrun, hble⟩, hw1, hci, hw2, hmult⟩ := h
  refine ⟨[], s.takeWhile Char.isAlpha, s.dropWhile Char.isAlpha, ?_,
    takeWhile_all _ _, pos_of_isEmpty_false (bnot_true hrun),
    Nat.le_of_ble_eq_true hble, ?_, ?_⟩
  · simp [List.takeWhile_append_dropWhile]
  · rw [prevAt_nil]
    exact bnot_true hprev
  · obtain ⟨c, hc, hcws⟩ := head_of_takeWhile_ne (ne_nil_of_isEmpty_false (bnot_true hw1))
    rw [hc]
    simp [wordO, isWs_not_word hcws]

theorem matchP4At_sound {prev : Option Char} {s : Chars} (h : matchP4At prev s = true) :
    ∃ pre run post, s = pre ++ run ++ post ∧ run.all Char.isAlpha = true ∧
      1 ≤ run.length ∧ run.length ≤ 5 ∧
      wordO (prevAt prev pre) = false ∧ wordO post.head? = false := by
  unfold matchP4At at h
  simp only [Bool.and_eq_true, Bool.or_eq_true] at h
  obtain ⟨hprev, ⟨hrun, hble⟩, hpar, hci⟩ := h
  refine ⟨[], s.takeWhile Char.isAlpha, s.dropWhile Char.isAlpha, ?_,
    takeWhile_all _ _, pos_of_isEmpty_false (bnot_true hrun),
    Nat.le_of_ble_eq_true hble, ?_, ?_⟩
  · simp [List.takeWhile_append_dropWhile]
  · rw [prevAt_nil]
    exact bnot_true hprev
  · have hh : (s.dropWhile Char.isAlpha).head? = some (')') := eq_of_beq hpar
    rw [hh]
    decide

theorem singleStockAux_sound : ∀ (s : Chars) (prev : Option Char),
    singleStockAux prev s = true →
    ∃ pre run post, s = pre ++ run ++ post ∧ run.all Char.isAlpha = true ∧
      1 ≤ run.length ∧ run.length ≤ 5 ∧
      wordO (prevAt prev pre) = false ∧ wordO post.head? = false := by
  intro s
  induction s with
  | nil => intro prev h; simp [singleStockAux] at h
  | cons c rest ih =>
    intro prev h
    rw [singleStockAux] at h
    simp only [Bool.or_eq_true] at h
    rcases h with ((((h | h) | h) | h) | h)
    · exact matchP1At_sound h
    · exact matchP2At_sound h
    · exact matchP3At_sound h
    · exact matchP4At_sound h
    · obtain ⟨pre, run, post, hs, hal, hlen1, hlen5, hprev, hpost⟩ := ih (some c) h
      refine ⟨c :: pre, run, post, by rw [hs]; simp, hal, hlen1, hlen5, ?_, hpost⟩
      rw [prevAt_cons]
      exact hprev

/-- Claim C8, amended: the single-stock shapes are matched case-insensitively
(lower-casing the raw name never changes the outcome), and a name is tagged
single-stock only when it contains a candidate ticker: a run of 1 to 5
letters (of either case) delimited by non-word positions. -/
theorem c8_amended (s : Chars) :
    (singleStockHint (s.map lowerChar) = singleStockHint s) ∧
    (singleStockHint s = true →
      ∃ pre run post, s = pre ++ run ++ post ∧ run.all Char.isAlpha = true ∧
        1 ≤ run.length ∧ run.length ≤ 5 ∧
        wordO pre.getLast? = false ∧ wordO post.head? = false) := by
  constructor
  · exact singleStockHint_map s
  · intro h
    obtain ⟨pre, run, post, hs, hal, hlen1, hlen5, hprev, hpost⟩ :=
      singleStockAux_sound s none h
    refine ⟨pre, run, post, hs, hal, hlen1, hlen5, ?_, hpost⟩
    rwa [prevAt_none] at hprev

theorem c8_amended_w :
    (singleStockHint (("Daily TSLA Bull".data).map lowerChar) =
      singleStockHint ("Daily TSLA Bull".data)) ∧
    (singleStockHint ("daily tsla bull".data) = true ∧
      ∃ pre run post, ("daily tsla bull".data) = pre ++ run ++ post ∧
        run.all Char.isAlpha = true ∧ 1 ≤ run.length ∧ run.length ≤ 5 ∧
        wordO pre.getLast? = false ∧ wordO post.head? = false) :=
  ⟨(c8_amended ("Daily TSLA Bull".data)).1,
   ⟨by decide, (c8_amended ("daily tsla bull".data)).2 (by decide)⟩⟩

/-- Claim C7 (confirmed): on a name containing "goldman", any commodity hit
comes from a standalone, word-bounded occurrence of a commodity/crypto token
that is not continued by "man" — the substring "gold" occurring only inside
"Goldman" can never produce the hit. -/
theorem c7_goldman (name : String)
    (hg : containsSub (foldName name) ("goldman".data) = true)
    (hc : commodityHit (foldName name) = true) :
    ∃ t, t ∈ COMMODITY_alts ∧ ∃ pre post,
      foldName name = pre ++ t ++ post ∧
      isBdry (prevAt none pre) t.head? = true ∧
      isBdry t.getLast? post.head? = true ∧
      (manTok.isPrefixOf post) = false := by
  rw [commodityHit] at hc
  rw [hg] at hc
  rw [if_pos rfl] at hc
  rcases Bool.or_eq_true _ _ ▸ hc with h | h
  · obtain ⟨pre, post, hs, hb1, hb2, hb3⟩ := goldNotManAux_ex (foldName name) none h
    refine ⟨goldTok, by decide, pre, post, hs, ?_, ?_, hb3⟩
    · have hh : goldTok.head? = some 'g' := rfl
      rw [hh]
      exact hb1
    · have hL : goldTok.getLast? = some 'd' := by decide
      rw [hL]
      exact hb2
  · obtain ⟨t, ht, pre, post, hs, hb1, hb2⟩ := searchTok_ex (by decide) h
    refine ⟨t, ht, pre, post, hs, hb1, hb2, ?_⟩
    have hb2' : (wordO t.getLast? != wordO post.head?) = true := hb2
    have hw : wordO post.head? = false := bdry_right_false hb2' (commodity_last_word t ht)
    have hman : manTok = 'm' :: ("an".data) := rfl
    rw [hman]
    exact prefl_false_of_head_not_word _ _ (by decide) hw

theorem c7_goldman_w :
    ((containsSub (foldName "Goldman Sachs Physical Gold ETF") ("goldman".data) = true) ∧
     commodityHit (foldName "Goldman Sachs Physical Gold ETF") = true) ∧
    (∃ t, t ∈ COMMODITY_alts ∧ ∃ pre post,
      foldName "Goldman Sachs Physical Gold ETF" = pre ++ t ++ post ∧
      isBdry (prevAt none pre) t.head? = true ∧
      isBdry t.getLast? post.head? = true ∧
      (manTok.isPrefixOf post) = false) :=
  ⟨⟨by decide, by decide⟩,
   c7_goldman "Goldman Sachs Physical Gold ETF" (by decide) (by decide)⟩

theorem c5_amended_w :
    ((detect "SPDR Gold Trust" [("ETF", "N")]).category =
      some "commodity_physical_trust" ∨
     (detect "SPDR Gold Trust" [("ETF", "N")]).category = some "crypto_trust") ∧
    (commodityHit (foldName "SPDR Gold Trust") = true ∧
      (searchTok TRUST_alts (foldName "SPDR Gold Trust") = true ∨
        searchTok PHYS_alts (foldName "SPDR Gold Trust") = true)) :=
  ⟨Or.inl (by decide),
   c5_amended "SPDR Gold Trust" [("ETF", "N")] (Or.inl (by decide))⟩

end EtpFinder
